import Mathlib

/-!
Verification of the Recurrence Expansion & Conflict Detection Engine of the
rooms-booking service (src/db/queries/bookings.py).

Modelling conventions (shallow embedding):
* a `datetime` (minute precision, naive) is an `Int`: minutes since 1970-01-01 00:00;
* a `date` is an `Int`: days since 1970-01-01; `dt.date()` is `dt / 1440` (floor division),
  `dt.time()` is `dt % 1440`, `datetime.combine(d, t)` is `d * 1440 + t`;
* `date.weekday()` (0 = Monday .. 6 = Sunday) is `(d + 3).emod 7`
  (1970-01-01 was a Thursday, weekday 3);
* `date.day` is computed by the standard civil-from-days conversion (`dayOfMonth`);
* string dates/datetimes of the storage boundary are represented by their parsed
  values; `recurrence_days` stays a raw `Option String` because the code parses
  it itself;
* each `aiosqlite.Row` becomes a structure carrying exactly the columns the
  engine reads; SQL `WHERE`/`ORDER BY` clauses become `List.filter` and a
  stable sort.
-/

namespace RoomsBooking

/-- comma separator used when splitting `recurrence_days`. -/
def commaStr : String := ","

/-- empty string, the `or ""` default for a missing `recurrence_days`. -/
def emptyStr : String := ""

/-- recurrence kind literal for daily bookings. -/
def dailyK : String := "daily"

/-- recurrence kind literal for weekly bookings. -/
def weeklyK : String := "weekly"

/-- recurrence kind literal for monthly bookings. -/
def monthlyK : String := "monthly"

/-- day-of-month literal used by concrete monthly examples. -/
def day31Str : String := "31"

/-- weekday-set literal (Monday and Wednesday) used by concrete weekly examples. -/
def zeroTwoStr : String := "0,2"

/-- a `recurrence_days` value with no integer token, used by concrete examples. -/
def junkDaysStr : String := "a, ,x"

/-- day-of-month (1..31) of a date given as days since 1970-01-01, proleptic
Gregorian, by the standard civil-from-days conversion; models Python `date.day`. -/
def dayOfMonth (z : Int) : Int :=
  let z' := z + 719468
  let era := z' / 146097
  let doe := z' - era * 146097
  let yoe := (doe - doe / 1460 + doe / 36524 - doe / 146096) / 365
  let doy := doe - (365 * yoe + yoe / 4 - yoe / 100)
  let mp := (5 * doy + 2) / 153
  doy - (153 * mp + 2) / 5 + 1

/-- whitespace test of Python `str.strip`. -/
def isSpaceChar (c : Char) : Bool :=
  c = ' ' || c = '\t' || c = '\n' || c = '\r'

/-- decimal-digit test of Python `str.isdigit` (ASCII digits). -/
def isDigitChar (c : Char) : Bool :=
  decide (48 ≤ c.toNat) && decide (c.toNat ≤ 57)

/-- models Python `s.split(",")` on the character list of `s`; an empty string
yields the single empty token, like Python. -/
def splitOnComma : List Char → List (List Char)
  | [] => [[]]
  | c :: cs =>
      if c = ',' then [] :: splitOnComma cs
      else
        match splitOnComma cs with
        | [] => [[c]]
        | t :: ts => (c :: t) :: ts

/-- models Python `str.strip()`: drop leading and trailing whitespace. -/
def trimChars (cs : List Char) : List Char :=
  ((cs.dropWhile isSpaceChar).reverse.dropWhile isSpaceChar).reverse

/-- numeric value of a list of decimal digits; models `int(d)` on the tokens
that pass the `isdigit` test. -/
def digitsVal (s : List Char) : Nat :=
  s.foldl (fun n c => n * 10 + (c.toNat - 48)) 0

/-- models `[int(d) for d in days_raw.split(",") if d.strip().isdigit()]`
with `days_raw = row["recurrence_days"] or ""`. -/
def parseDays (raw : Option String) : List Int :=
  (splitOnComma (raw.getD emptyStr).toList).filterMap (fun t =>
    if (trimChars t).length != 0 && (trimChars t).all isDigitChar then
      some (Int.ofNat (digitsVal (trimChars t)))
    else none)

/-- fuel-driven march of consecutive dates starting at `a`. -/
def dateListAux (a : Int) : Nat → List Int
  | 0 => []
  | n + 1 => a :: dateListAux (a + 1) n

/-- ascending list of dates `a, a+1, ..., b` (empty when `a > b`); models the
`cursor = start.date(); while cursor <= stop: ...; cursor += timedelta(days=1)` march. -/
def dateList (a b : Int) : List Int :=
  dateListAux a (b + 1 - a).toNat

/-- the columns of a `bookings` row that `_expand_occurrences` reads; also the
shape of the ad hoc fake row built for a proposed booking in `check_conflicts`. -/
structure BookingDef where
  start_dt : Int
  end_dt : Int
  recurrence_type : Option String
  recurrence_days : Option String
  recurrence_until : Option Int
deriving DecidableEq, Repr

/-- the `include` flag computed for one cursor date in the expansion loop:
daily always, weekly by weekday membership, monthly by day-of-month membership,
anything else never. -/
def inclB (rt : String) (day_nums : List Int) (cursor : Int) : Bool :=
  if rt = dailyK then true
  else if rt = weeklyK then decide ((cursor + 3).emod 7 ∈ day_nums)
  else if rt = monthlyK then decide (dayOfMonth cursor ∈ day_nums)
  else false

/-- the occurrence emitted for a cursor date:
`occ_start = datetime.combine(cursor, start.time()); occ_end = occ_start + duration`. -/
def occAt (b : BookingDef) (cursor : Int) : Int × Int :=
  (cursor * 1440 + b.start_dt % 1440,
   cursor * 1440 + b.start_dt % 1440 + (b.end_dt - b.start_dt))

/-- models `_expand_occurrences(booking, window_start, window_end)` from
src/db/queries/bookings.py: the list of concrete `(start, end)` minute pairs of
the booking that fall within the date window. -/
def _expand_occurrences (b : BookingDef) (window_start window_end : Int) :
    List (Int × Int) :=
  match b.recurrence_type with
  | none =>
      if window_start ≤ b.start_dt / 1440 ∧ b.start_dt / 1440 ≤ window_end then
        [(b.start_dt, b.end_dt)]
      else []
  | some rt =>
      let untl := b.recurrence_until.getD window_end
      let day_nums := parseDays b.recurrence_days
      (dateList (b.start_dt / 1440) (min untl window_end)).filterMap (fun cursor =>
        if window_start ≤ cursor then
          if inclB rt day_nums cursor then some (occAt b cursor) else none
        else none)

/-- a stored `bookings` row joined with its user, as read by the engine. -/
structure BookingRow where
  id : Int
  room_id : Int
  title : String
  username : String
  full_name : String
  is_cancelled : Bool
  defn : BookingDef
deriving DecidableEq, Repr

/-- one conflict dict appended by `check_conflicts`. -/
structure ConflictRec where
  booking_id : Int
  title : String
  start_dt : Int
  end_dt : Int
  username : String
  full_name : String
deriving DecidableEq, Repr

/-- the half-open overlap test inlined in `check_conflicts`:
`p_start < e_end and p_end > e_start`. -/
def overlaps (p e : Int × Int) : Bool :=
  decide (p.1 < e.2 ∧ p.2 > e.1)

/-- the conflict dict built from an existing row and one of its occurrences. -/
def mkRec (ex : BookingRow) (e : Int × Int) : ConflictRec :=
  ⟨ex.id, ex.title, e.1, e.2, ex.username, ex.full_name⟩

/-- models `if exclude_booking_id and ex["id"] == exclude_booking_id: continue`
(Python truthiness: `None` and `0` never exclude anything). -/
def skipExcluded (excl : Option Int) (ex : BookingRow) : Bool :=
  match excl with
  | some x => decide (x ≠ 0) && decide (ex.id = x)
  | none => false

/-- models `check_conflicts` from src/db/queries/bookings.py. The bookings table
(restricted by SQL to the room's non-cancelled rows) is passed as `db`. -/
def check_conflicts (db : List BookingRow) (room_id : Int)
    (start_dt end_dt : Int)
    (recurrence_type recurrence_days : Option String)
    (recurrence_until : Option Int)
    (exclude_booking_id : Option Int) : List ConflictRec :=
  let proposed : BookingDef :=
    ⟨start_dt, end_dt, recurrence_type, recurrence_days, recurrence_until⟩
  let win_end := match recurrence_until with
    | some u => u
    | none => start_dt / 1440 + 366
  let win_start := start_dt / 1440
  let proposed_occurrences := _expand_occurrences proposed win_start win_end
  if proposed_occurrences.isEmpty then []
  else
    let existing := db.filter (fun b => decide (b.room_id = room_id) && !b.is_cancelled)
    existing.flatMap (fun ex =>
      if skipExcluded exclude_booking_id ex then []
      else
        let ex_occ := _expand_occurrences ex.defn win_start win_end
        proposed_occurrences.flatMap (fun p =>
          (ex_occ.filter (fun e => overlaps p e)).map (fun e => mkRec ex e)))

/-- a `rooms` row as read by `find_free_rooms` (already company-filtered,
active and name-ordered by the SQL query). -/
structure RoomRow where
  id : Int
  name : String
deriving DecidableEq, Repr

/-- models `find_free_rooms`: keeps, in order, the rooms whose conflict check
for the single concrete slot comes back empty. -/
def find_free_rooms (rooms : List RoomRow) (db : List BookingRow)
    (start_dt end_dt : Int) : List RoomRow :=
  match rooms with
  | [] => []
  | room :: rest =>
      let conflicts := check_conflicts db room.id start_dt end_dt none none none none
      if conflicts.isEmpty then room :: find_free_rooms rest db start_dt end_dt
      else find_free_rooms rest db start_dt end_dt

/-- ordering of raw rows by the SQL `ORDER BY b.start_dt` (the zero-padded
`YYYY-MM-DD HH:MM` format makes text order agree with chronological order). -/
def rowLE (a b : BookingRow) : Prop := a.defn.start_dt ≤ b.defn.start_dt

instance : DecidableRel rowLE :=
  fun a b => inferInstanceAs (Decidable (a.defn.start_dt ≤ b.defn.start_dt))

/-- models `get_room_bookings_raw`: the room's non-cancelled rows ordered by
their anchor `start_dt`. -/
def get_room_bookings_raw (db : List BookingRow) (room_id : Int) : List BookingRow :=
  List.insertionSort rowLE
    (db.filter (fun b => decide (b.room_id = room_id) && !b.is_cancelled))

/-- one dict appended by `get_room_schedule`. -/
structure ScheduleEntry where
  booking_id : Int
  title : String
  start_dt : Int
  end_dt : Int
  username : String
  full_name : String
  recurrence_type : Option String
deriving DecidableEq, Repr

/-- the schedule dicts contributed by one raw row. -/
def entriesOf (b : BookingRow) (window_start window_end : Int) : List ScheduleEntry :=
  (_expand_occurrences b.defn window_start window_end).map (fun occ =>
    ⟨b.id, b.title, occ.1, occ.2, b.username, b.full_name, b.defn.recurrence_type⟩)

/-- ordering of schedule entries by `result.sort(key=lambda x: x["start_dt"])`
(Python's sort is stable, as is insertion sort). -/
def entryLE (a b : ScheduleEntry) : Prop := a.start_dt ≤ b.start_dt

instance : DecidableRel entryLE :=
  fun a b => inferInstanceAs (Decidable (a.start_dt ≤ b.start_dt))

/-- models `get_room_schedule`: expand every raw row over the window,
concatenate, and stably sort the combined list by occurrence start. -/
def get_room_schedule (db : List BookingRow) (room_id : Int)
    (window_start window_end : Int) : List ScheduleEntry :=
  List.insertionSort entryLE
    ((get_room_bookings_raw db room_id).flatMap (fun b => entriesOf b window_start window_end))

/-- title string of the worked examples. -/
def titleA : String := "standup"

/-- second title string of the worked examples. -/
def titleB : String := "retro"

/-- username string of the worked examples. -/
def userU : String := "user"

/-- display-name string of the worked examples. -/
def nameF : String := "Full Name"

/-- worked example: a non-recurring booking, id 1, room 1,
2024-01-02 10:00–11:00. -/
def exRow1 : BookingRow :=
  ⟨1, 1, titleA, userU, nameF, false, ⟨28403160, 28403220, none, none, none⟩⟩

/-- worked example: a non-recurring booking, id 2, room 1,
2024-01-01 10:00–11:00. -/
def exRow2 : BookingRow :=
  ⟨2, 1, titleB, userU, nameF, false, ⟨28401720, 28401780, none, none, none⟩⟩

/-- worked example: a daily booking, id 2, room 1, 2024-01-01 10:00–11:00
until 2024-01-02. -/
def exRowDaily : BookingRow :=
  ⟨2, 1, titleB, userU, nameF, false, ⟨28401720, 28401780, some dailyK, none, some 19724⟩⟩

/-! ## Helper lemmas -/

/-- the march is empty when the stop date precedes the start date. -/
theorem dateList_nil {a b : Int} (h : b < a) : dateList a b = [] := by
  unfold dateList
  rw [show (b + 1 - a).toNat = 0 from by omega]
  rfl

/-- one unfolding step of the march when the start date has not passed the stop. -/
theorem dateList_cons {a b : Int} (h : a ≤ b) :
    dateList a b = a :: dateList (a + 1) b := by
  unfold dateList
  rw [show (b + 1 - a).toNat = (b + 1 - (a + 1)).toNat + 1 from by omega]
  rfl

/-- membership in the fuel-driven march. -/
theorem mem_dateListAux {x : Int} :
    ∀ {n : Nat} {a : Int}, x ∈ dateListAux a n ↔ a ≤ x ∧ x < a + n := by
  intro n
  induction n with
  | zero =>
    intro a
    simp only [dateListAux, List.not_mem_nil, false_iff]
    omega
  | succ n ih =>
    intro a
    simp only [dateListAux, List.mem_cons, ih]
    omega

/-- membership in the date march. -/
theorem mem_dateList {a b x : Int} : x ∈ dateList a b ↔ a ≤ x ∧ x ≤ b := by
  unfold dateList
  rw [mem_dateListAux]
  omega

/-- the fuel-driven march is strictly ascending. -/
theorem dateListAux_pairwise : ∀ (n : Nat) (a : Int),
    List.Pairwise (fun x y => x < y) (dateListAux a n) := by
  intro n
  induction n with
  | zero => intro a; exact List.Pairwise.nil
  | succ n ih =>
    intro a
    simp only [dateListAux, List.pairwise_cons]
    refine ⟨fun x hx => ?_, ih (a + 1)⟩
    have := mem_dateListAux.mp hx
    omega

/-- the date march is strictly ascending. -/
theorem dateList_pairwise (a b : Int) :
    List.Pairwise (fun x y => x < y) (dateList a b) :=
  dateListAux_pairwise _ _

/-- a guarded filterMap with a one-sided bound restarts at the bound. -/
theorem dateList_filterMap_shift {α : Type} (ws a b : Int) (g : Int → Option α) :
    (dateList a b).filterMap (fun d => if ws ≤ d then g d else none)
      = (dateList (max a ws) b).filterMap (fun d => if ws ≤ d then g d else none) := by
  have main : ∀ (n : Nat) (a : Int), (b + 1 - a).toNat = n →
      (dateList a b).filterMap (fun d => if ws ≤ d then g d else none)
        = (dateList (max a ws) b).filterMap (fun d => if ws ≤ d then g d else none) := by
    intro n
    induction n with
    | zero =>
      intro a h
      rw [dateList_nil (by omega), dateList_nil (by omega)]
    | succ n ih =>
      intro a h
      by_cases hws : ws ≤ a
      · rw [show max a ws = a from by omega]
      · rw [dateList_cons (by omega : a ≤ b)]
        simp only [List.filterMap_cons, if_neg hws]
        rw [ih (a + 1) (by omega)]
        rw [show max (a + 1) ws = max a ws from by omega]
  exact main _ a rfl

/-- a filterMap whose guard holds on every element of the list is a map over a filter. -/
theorem filterMap_ite_eq_map_filter {α β : Type} (p : α → Bool) (f : α → β) (l : List α) :
    l.filterMap (fun d => if p d then some (f d) else none) = (l.filter p).map f := by
  induction l with
  | nil => rfl
  | cons x xs ih =>
    cases hp : p x <;>
      simp [List.filterMap_cons, List.filter_cons, hp, ih]

/-- inversion of the expansion loop body. -/
theorem expand_body_eq_some {rt : String} {dn : List Int} {b : BookingDef}
    {ws cursor : Int} {x : Int × Int}
    (h : (if ws ≤ cursor then
            if inclB rt dn cursor then some (occAt b cursor) else none
          else none) = some x) :
    ws ≤ cursor ∧ inclB rt dn cursor = true ∧ x = occAt b cursor := by
  by_cases h1 : ws ≤ cursor
  · rw [if_pos h1] at h
    by_cases h2 : inclB rt dn cursor
    · rw [if_pos h2] at h
      exact ⟨h1, h2, (Option.some_inj.mp h).symm⟩
    · rw [if_neg h2] at h
      exact absurd h (by simp)
  · rw [if_neg h1] at h
    exact absurd h (by simp)

/-- occurrence starts inside one expansion strictly ascend. -/
theorem expand_pairwise (b : BookingDef) (ws we : Int) :
    List.Pairwise (fun x y => x.1 < y.1) (_expand_occurrences b ws we) := by
  cases hb : b.recurrence_type with
  | none =>
    simp only [_expand_occurrences, hb]
    split
    · exact List.pairwise_singleton _ _
    · exact List.Pairwise.nil
  | some rt =>
    simp only [_expand_occurrences, hb]
    apply List.pairwise_filterMap.mpr
    apply (dateList_pairwise _ _).imp
    intro c c' hlt x hx y hy
    obtain ⟨-, -, hx'⟩ := expand_body_eq_some (Option.mem_def.mp hx)
    obtain ⟨-, -, hy'⟩ := expand_body_eq_some (Option.mem_def.mp hy)
    subst hx' hy'
    simp only [occAt]
    omega

/-- one expansion never repeats an occurrence. -/
theorem expand_nodup (b : BookingDef) (ws we : Int) :
    (_expand_occurrences b ws we).Nodup := by
  apply (expand_pairwise b ws we).imp
  intro x y hlt heq
  rw [heq] at hlt
  omega

/-- closed form of a recurring expansion with an explicit `until`: the dates of
`[max(anchor, window_start), min(until, window_end)]` that pass the inclusion
test, each mapped to its anchored occurrence. -/
theorem expand_recurring_eq (b : BookingDef) (ws we : Int) (rt : String) (u : Int)
    (hr : b.recurrence_type = some rt) (hu : b.recurrence_until = some u) :
    _expand_occurrences b ws we
      = ((dateList (max (b.start_dt / 1440) ws) (min u we)).filter
          (inclB rt (parseDays b.recurrence_days))).map (occAt b) := by
  simp only [_expand_occurrences, hr, hu, Option.getD_some]
  rw [dateList_filterMap_shift ws (b.start_dt / 1440) (min u we)
      (fun d => if inclB rt (parseDays b.recurrence_days) d then some (occAt b d) else none)]
  have h1 : (dateList (max (b.start_dt / 1440) ws) (min u we)).filterMap
      (fun d => if ws ≤ d then
        (if inclB rt (parseDays b.recurrence_days) d then some (occAt b d) else none)
      else none)
    = (dateList (max (b.start_dt / 1440) ws) (min u we)).filterMap
      (fun d => if inclB rt (parseDays b.recurrence_days) d then some (occAt b d) else none) := by
    apply List.filterMap_congr
    intro x hx
    have hm := mem_dateList.mp hx
    rw [if_pos (by omega : ws ≤ x)]
  rw [h1, filterMap_ite_eq_map_filter]

/-- building a conflict record from a fixed existing row is injective in the
occurrence. -/
theorem mkRec_injective (ex : BookingRow) : Function.Injective (mkRec ex) := by
  intro a b h
  simp only [mkRec, ConflictRec.mk.injEq] at h
  exact Prod.ext h.2.2.1 h.2.2.2.1

/-- every record of one existing row's conflict block carries that row's id. -/
theorem mem_block_booking_id {P E : List (Int × Int)} {b : BookingRow} {r : ConflictRec}
    (hr : r ∈ P.flatMap (fun p => (E.filter (fun e => overlaps p e)).map (fun e => mkRec b e))) :
    r.booking_id = b.id := by
  obtain ⟨p, -, hr⟩ := List.mem_flatMap.mp hr
  obtain ⟨e', -, rfl⟩ := List.mem_map.mp hr
  rfl

/-- count of an absent element is zero, phrased for the decidable-equality
`BEq` instance. -/
theorem count_eq_zero_of_not_mem' {α : Type} [DecidableEq α] {a : α} {l : List α}
    (h : a ∉ l) : l.count a = 0 := by
  induction l with
  | nil => rfl
  | cons x xs ih =>
    have hx : (x == a) = false := by
      simp only [beq_eq_false_iff_ne, ne_eq]
      exact fun he => h (List.mem_cons.mpr (Or.inl he.symm))
    rw [List.count_cons, hx, ih (fun hm => h (List.mem_cons_of_mem x hm))]
    simp

/-- summing an indicator over a list counts the filtered elements. -/
theorem sum_map_ite_length {α : Type} (q : α → Bool) (P : List α) :
    (P.map (fun p => if q p then 1 else 0)).sum = (P.filter q).length := by
  induction P with
  | nil => rfl
  | cons x xs ih =>
    cases hq : q x <;> simp [List.filter_cons, hq, ih] <;> omega

/-- the sum of a function over a duplicate-free list that vanishes away from
one member is its value there. -/
theorem sum_map_single {α : Type} [DecidableEq α] (L : List α) (f : α → Nat) (a : α)
    (hnd : L.Nodup) (ha : a ∈ L) (h0 : ∀ b ∈ L, b ≠ a → f b = 0) :
    (L.map f).sum = f a := by
  induction L with
  | nil => exact absurd ha (List.not_mem_nil a)
  | cons x xs ih =>
    rw [List.nodup_cons] at hnd
    by_cases hxa : x = a
    · subst hxa
      simp only [List.map_cons, List.sum_cons]
      have hz : (xs.map f).sum = 0 := by
        apply List.sum_eq_zero
        intro y hy
        obtain ⟨b, hb, rfl⟩ := List.mem_map.mp hy
        exact h0 b (List.mem_cons_of_mem x hb) (fun hba => hnd.1 (hba ▸ hb))
      omega
    · have hax : a ∈ xs := by
        rcases List.mem_cons.mp ha with h | h
        · exact absurd h.symm hxa
        · exact h
      simp only [List.map_cons, List.sum_cons]
      rw [h0 x (List.mem_cons_self x xs) hxa,
        ih hnd.2 hax (fun b hb => h0 b (List.mem_cons_of_mem x hb))]
      omega

/-! ## Claim theorems: the occurrence expander -/

/-- C5: for a non-recurring definition and a window with `window_start ≤ window_end`,
expansion is exactly `[(anchor_start, anchor_end)]` when the anchor's date lies in
`[window_start, window_end]`, and `[]` otherwise. -/
theorem expand_nonrecurring_spec (b : BookingDef) (ws we : Int)
    (h : b.recurrence_type = none) (hw : ws ≤ we) :
    _expand_occurrences b ws we
      = if ws ≤ b.start_dt / 1440 ∧ b.start_dt / 1440 ≤ we
        then [(b.start_dt, b.end_dt)] else [] := by
  simp only [_expand_occurrences, h]

/-- C5 witness: a non-recurring booking anchored on day 19724 at 10:00 is
returned inside the window [19723, 19724] and dropped outside [19725, 19800]. -/
theorem expand_nonrecurring_spec_witness :
    _expand_occurrences ⟨28403160, 28403220, none, none, none⟩ 19723 19724
        = [(28403160, 28403220)]
      ∧ _expand_occurrences ⟨28403160, 28403220, none, none, none⟩ 19725 19800 = [] := by
  constructor
  · rw [expand_nonrecurring_spec ⟨28403160, 28403220, none, none, none⟩ 19723 19724 rfl
        (by decide)]
    decide
  · rw [expand_nonrecurring_spec ⟨28403160, 28403220, none, none, none⟩ 19725 19800 rfl
        (by decide)]
    decide

/-- C2: a recurring expansion with an explicit `until` emits, in ascending order,
exactly one occurrence for every date of `[max(anchor, window_start),
min(until, window_end)]` passing its kind's inclusion test (daily: always;
weekly: weekday membership; monthly: day-of-month membership), each occurrence
starting at that date with the anchor's time-of-day and lasting the anchor's
duration; the sequence is sorted by start ascending. -/
theorem expand_recurring_spec (b : BookingDef) (ws we u : Int) (rt : String)
    (hr : b.recurrence_type = some rt)
    (hk : rt = dailyK ∨ rt = weeklyK ∨ rt = monthlyK)
    (hu : b.recurrence_until = some u)
    (hw : ws ≤ we) :
    _expand_occurrences b ws we
      = ((dateList (max (b.start_dt / 1440) ws) (min u we)).filter (fun d =>
          if rt = dailyK then true
          else if rt = weeklyK then decide ((d + 3).emod 7 ∈ parseDays b.recurrence_days)
          else decide (dayOfMonth d ∈ parseDays b.recurrence_days))).map (fun d =>
          (d * 1440 + b.start_dt % 1440,
           d * 1440 + b.start_dt % 1440 + (b.end_dt - b.start_dt)))
    ∧ List.Pairwise (fun x y => x.1 < y.1) (_expand_occurrences b ws we) := by
  refine ⟨?_, expand_pairwise b ws we⟩
  rw [expand_recurring_eq b ws we rt u hr hu]
  have hf : ∀ d ∈ dateList (max (b.start_dt / 1440) ws) (min u we),
      inclB rt (parseDays b.recurrence_days) d
        = (if rt = dailyK then true
           else if rt = weeklyK then decide ((d + 3).emod 7 ∈ parseDays b.recurrence_days)
           else decide (dayOfMonth d ∈ parseDays b.recurrence_days)) := by
    intro d _
    rcases hk with h | h | h <;> subst h <;>
      simp [inclB, dailyK, weeklyK, monthlyK]
  rw [List.filter_congr hf]
  rfl

/-- C2 witness: a weekly Monday/Wednesday booking anchored on Monday 2024-01-01
10:00, checked over its own two-week span, hits days 0, 2, 7, 9 of the span. -/
theorem expand_recurring_spec_witness :
    _expand_occurrences ⟨28401720, 28401780, some weeklyK, some zeroTwoStr, some 19736⟩
        19723 19736
      = [(28401720, 28401780), (28404600, 28404660),
         (28411800, 28411860), (28414680, 28414740)] := by
  have h := (expand_recurring_spec
      ⟨28401720, 28401780, some weeklyK, some zeroTwoStr, some 19736⟩
      19723 19736 19736 weeklyK rfl (Or.inr (Or.inl rfl)) rfl (by decide)).1
  rw [h]
  decide

/-- C6: the documented defensive cases all degrade to an empty expansion:
an inverted window (for any definition), a recurring `until` before the anchor
date, and an unknown recurrence kind. -/
theorem expand_defensive_spec :
    (∀ (b : BookingDef) (ws we : Int), we < ws → _expand_occurrences b ws we = [])
    ∧ (∀ (b : BookingDef) (rt : String) (u ws we : Int),
        b.recurrence_type = some rt → b.recurrence_until = some u →
        u < b.start_dt / 1440 → _expand_occurrences b ws we = [])
    ∧ (∀ (b : BookingDef) (rt : String) (ws we : Int),
        b.recurrence_type = some rt → rt ≠ dailyK → rt ≠ weeklyK → rt ≠ monthlyK →
        _expand_occurrences b ws we = []) := by
  refine ⟨?_, ?_, ?_⟩
  · intro b ws we hlt
    cases hb : b.recurrence_type with
    | none =>
      simp only [_expand_occurrences, hb]
      rw [if_neg (by omega)]
    | some rt =>
      simp only [_expand_occurrences, hb]
      apply List.filterMap_eq_nil.mpr
      intro d hd
      have := mem_dateList.mp hd
      rw [if_neg (by omega)]
  · intro b rt u ws we hr hu hlt
    simp only [_expand_occurrences, hr, hu, Option.getD_some]
    rw [dateList_nil (by omega)]
    rfl
  · intro b rt ws we hr h1 h2 h3
    simp only [_expand_occurrences, hr]
    apply List.filterMap_eq_nil.mpr
    intro d hd
    simp [inclB, h1, h2, h3]

/-- C6 witness: an inverted window, a daily booking whose `until` predates its
anchor, and an unknown kind each expand to nothing. -/
theorem expand_defensive_spec_witness :
    _expand_occurrences ⟨28403160, 28403220, none, none, none⟩ 19724 19723 = []
    ∧ _expand_occurrences ⟨28403160, 28403220, some dailyK, none, some 19000⟩ 19000 19999 = []
    ∧ _expand_occurrences ⟨28403160, 28403220, some emptyStr, none, some 19999⟩ 19000 19999 = [] := by
  refine ⟨?_, ?_, ?_⟩
  · exact expand_defensive_spec.1 ⟨28403160, 28403220, none, none, none⟩ 19724 19723 (by decide)
  · exact expand_defensive_spec.2.1 ⟨28403160, 28403220, some dailyK, none, some 19000⟩
      dailyK 19000 19000 19999 rfl rfl (by decide)
  · exact expand_defensive_spec.2.2 ⟨28403160, 28403220, some emptyStr, none, some 19999⟩
      emptyStr 19000 19999 rfl (by decide) (by decide) (by decide)

/-- C10: a weekly or monthly definition whose `recurrence_days` is null, empty,
or free of integer tokens expands to the empty list over any window. -/
theorem expand_empty_days_spec (b : BookingDef) (ws we : Int) (rt : String)
    (hr : b.recurrence_type = some rt)
    (hk : rt = weeklyK ∨ rt = monthlyK)
    (hd : b.recurrence_days = none ∨ b.recurrence_days = some emptyStr ∨
          ∀ t ∈ splitOnComma (b.recurrence_days.getD emptyStr).toList,
            ((trimChars t).length != 0 && (trimChars t).all isDigitChar) = false) :
    _expand_occurrences b ws we = [] := by
  have hpd : parseDays b.recurrence_days = [] := by
    rcases hd with h | h | h
    · rw [h]; rfl
    · rw [h]; rfl
    · unfold parseDays
      apply List.filterMap_eq_nil.mpr
      intro t ht
      rw [if_neg]
      simp only [h t ht, Bool.false_eq_true, not_false_eq_true]
  simp only [_expand_occurrences, hr]
  apply List.filterMap_eq_nil.mpr
  intro d hd'
  rcases hk with h | h <;> subst h <;>
    simp [inclB, hpd, dailyK, weeklyK, monthlyK]

/-- C10 witness: a weekly booking with `recurrence_days` lacking any integer
token expands to nothing on a window that would otherwise produce occurrences. -/
theorem expand_empty_days_spec_witness :
    _expand_occurrences ⟨28401720, 28401780, some weeklyK, some junkDaysStr, some 19736⟩
      19723 19736 = [] :=
  expand_empty_days_spec ⟨28401720, 28401780, some weeklyK, some junkDaysStr, some 19736⟩
    19723 19736 weeklyK rfl (Or.inl rfl) (Or.inr (Or.inr (by decide)))

/-- C9: every occurrence of a monthly expansion falls on a day-of-month in the
parsed day set (so a month lacking that day contributes nothing, without error);
concretely, `Monthly(days={31})` anchored 2025-01-31 10:00–11:00 with
`until` 2025-03-31, over the window [2025-01-31, 2025-03-31], yields exactly the
occurrences of Jan 31 and Mar 31 and none in February. -/
theorem monthly_day_selection :
    (∀ (b : BookingDef) (ws we : Int), b.recurrence_type = some monthlyK →
      ∀ x ∈ _expand_occurrences b ws we,
        dayOfMonth (x.1 / 1440) ∈ parseDays b.recurrence_days)
    ∧ _expand_occurrences ⟨28971960, 28972020, some monthlyK, some day31Str, some 20178⟩
        20119 20178
      = [(28971960, 28972020), (29056920, 29056980)] := by
  constructor
  · intro b ws we hr x hx
    simp only [_expand_occurrences, hr] at hx
    obtain ⟨c, hc, hbody⟩ := List.mem_filterMap.mp hx
    obtain ⟨-, hincl, hx'⟩ := expand_body_eq_some hbody
    have hmon : dayOfMonth c ∈ parseDays b.recurrence_days := by
      by_cases h1 : monthlyK = dailyK
      · exact absurd h1 (by decide)
      · by_cases h2 : monthlyK = weeklyK
        · exact absurd h2 (by decide)
        · simp only [inclB, if_neg h1, if_neg h2, eq_self_iff_true, if_true,
            decide_eq_true_eq] at hincl
          exact hincl
    subst hx'
    have hq : (c * 1440 + b.start_dt % 1440) / 1440 = c := by
      rw [add_comm, Int.add_mul_ediv_right _ _ (by omega : (1440 : Int) ≠ 0)]
      rw [Int.ediv_eq_zero_of_lt (Int.emod_nonneg _ (by omega))
        (Int.emod_lt_of_pos _ (by omega))]
      omega
    simpa [occAt, hq] using hmon
  · decide

/-- C9 witness: the January occurrence of the concrete monthly booking indeed
falls on day 31. -/
theorem monthly_day_selection_witness :
    dayOfMonth (((28971960 : Int) / 1440)) ∈ parseDays (some day31Str) := by
  have h := monthly_day_selection.1
    ⟨28971960, 28972020, some monthlyK, some day31Str, some 20178⟩ 20119 20178 rfl
    (28971960, 28972020) (by decide)
  exact h

/-! ## Claim theorems: the conflict detector and its callers -/

/-- C7: the conflict check window starts at the candidate's anchor date and ends
at its `until` when given, else at the anchor date plus 366 days; a candidate
whose expansion over that window is empty yields an empty result for every
store of existing definitions, without error. -/
theorem check_conflicts_empty_candidate (db : List BookingRow) (room_id : Int)
    (s e : Int) (rt rd : Option String) (ru excl : Option Int)
    (h : _expand_occurrences ⟨s, e, rt, rd, ru⟩ (s / 1440)
        (match ru with | some u => u | none => s / 1440 + 366) = []) :
    check_conflicts db room_id s e rt rd ru excl = [] := by
  simp only [check_conflicts, h, List.isEmpty_nil, if_true]

/-- C7 witness: a daily candidate whose `until` (day 19000) predates its anchor
(day 19723) produces no conflict against an occupied room. -/
theorem check_conflicts_empty_candidate_witness :
    check_conflicts [exRow1] 1 28401720 28401780 (some dailyK) none (some 19000) none
      = [] :=
  check_conflicts_empty_candidate [exRow1] 1 28401720 28401780 (some dailyK) none
    (some 19000) none (by decide)

/-- C8: the free-room finder returns exactly the active rooms whose conflict
check with the synthetic non-recurring candidate `(start, end, recurrence=None)`
comes back empty, preserving the input room order. -/
theorem find_free_rooms_spec (rooms : List RoomRow) (db : List BookingRow) (s e : Int) :
    find_free_rooms rooms db s e
      = rooms.filter (fun r => (check_conflicts db r.id s e none none none none).isEmpty)
    ∧ (find_free_rooms rooms db s e).Sublist rooms := by
  have h : find_free_rooms rooms db s e
      = rooms.filter (fun r => (check_conflicts db r.id s e none none none none).isEmpty) := by
    induction rooms with
    | nil => rfl
    | cons r rest ih =>
      simp only [find_free_rooms, List.filter_cons]
      cases hc : (check_conflicts db r.id s e none none none none).isEmpty <;>
        simp [hc, ih]
  exact ⟨h, h ▸ List.filter_sublist rooms⟩

/-- C1: the returned list holds exactly one conflict record per overlapping pair
of a candidate occurrence and an occurrence of a non-cancelled, non-excluded
existing definition of the room — the record's multiplicity equals the number of
candidate occurrences overlapping that existing occurrence under the strict
half-open test; every record names the existing definition and the concrete
existing occurrence; and occurrences that merely touch never overlap. Existing
row ids are assumed unique (primary keys). -/
theorem check_conflicts_pairs (db : List BookingRow) (room_id s e : Int)
    (rt rd : Option String) (ru excl : Option Int)
    (hid : (db.map (fun b => b.id)).Nodup) :
    (∀ ex ∈ db, ex.room_id = room_id → ex.is_cancelled = false →
      skipExcluded excl ex = false →
      ∀ eo ∈ _expand_occurrences ex.defn (s / 1440)
          (match ru with | some u => u | none => s / 1440 + 366),
        (check_conflicts db room_id s e rt rd ru excl).count (mkRec ex eo)
          = ((_expand_occurrences ⟨s, e, rt, rd, ru⟩ (s / 1440)
              (match ru with | some u => u | none => s / 1440 + 366)).filter
              (fun q => overlaps q eo)).length)
    ∧ (∀ r ∈ check_conflicts db room_id s e rt rd ru excl,
        ∃ ex ∈ db, ex.room_id = room_id ∧ ex.is_cancelled = false ∧
          skipExcluded excl ex = false ∧
          ∃ eo ∈ _expand_occurrences ex.defn (s / 1440)
              (match ru with | some u => u | none => s / 1440 + 366),
            r = mkRec ex eo ∧
            ∃ q ∈ _expand_occurrences ⟨s, e, rt, rd, ru⟩ (s / 1440)
                (match ru with | some u => u | none => s / 1440 + 366),
              overlaps q eo = true)
    ∧ (∀ q eo : Int × Int, q.2 = eo.1 ∨ eo.2 = q.1 → overlaps q eo = false) := by
  set we := (match ru with | some u => u | none => s / 1440 + 366 : Int) with hwe
  set P := _expand_occurrences ⟨s, e, rt, rd, ru⟩ (s / 1440) we with hPdef
  set L := db.filter (fun b => decide (b.room_id = room_id) && !b.is_cancelled) with hLdef
  set F := (fun ex => if skipExcluded excl ex then ([] : List ConflictRec)
      else P.flatMap (fun q => ((_expand_occurrences ex.defn (s / 1440) we).filter
        (fun e2 => overlaps q e2)).map (fun e2 => mkRec ex e2))) with hFdef
  have hcc : check_conflicts db room_id s e rt rd ru excl
      = if P.isEmpty then [] else L.flatMap F := rfl
  refine ⟨?_, ?_, ?_⟩
  · intro ex hexdb hroom hcanc hskf eo heo
    rw [hcc]
    by_cases hPe : P.isEmpty
    · rw [if_pos hPe, List.isEmpty_iff.mp hPe]
      simp
    · rw [if_neg hPe, List.count_flatMap]
      have hLnd : L.Nodup := List.Nodup.filter _ (List.Nodup.of_map _ hid)
      have hexL : ex ∈ L := List.mem_filter.mpr ⟨hexdb, by simp [hroom, hcanc]⟩
      rw [sum_map_single L _ ex hLnd hexL ?_]
      · simp only [Function.comp_apply, hFdef]
        rw [if_neg (by simp [hskf])]
        rw [List.count_flatMap]
        have hper : ∀ q : Int × Int,
            (List.count (mkRec ex eo) ∘ fun q =>
              ((_expand_occurrences ex.defn (s / 1440) we).filter
                (fun e2 => overlaps q e2)).map (fun e2 => mkRec ex e2)) q
              = if overlaps q eo = true then 1 else 0 := by
          intro q
          simp only [Function.comp_apply]
          rw [List.count_map_of_injective _ _ (mkRec_injective ex)]
          by_cases hov : overlaps q eo = true
          · rw [if_pos hov]
            exact List.count_eq_one_of_mem
              (List.Nodup.filter _ (expand_nodup ex.defn _ _))
              (List.mem_filter.mpr ⟨heo, hov⟩)
          · rw [if_neg hov]
            exact count_eq_zero_of_not_mem'
              (fun hmem => hov (List.mem_filter.mp hmem).2)
        rw [show (List.count (mkRec ex eo) ∘ fun q =>
              ((_expand_occurrences ex.defn (s / 1440) we).filter
                (fun e2 => overlaps q e2)).map (fun e2 => mkRec ex e2))
            = (fun q => if overlaps q eo = true then 1 else 0) from funext hper]
        exact sum_map_ite_length _ _
      · intro b hbL hbne
        simp only [Function.comp_apply, hFdef]
        apply List.count_eq_zero_of_not_mem
        intro hmem
        by_cases hsk : skipExcluded excl b
        · rw [if_pos hsk] at hmem
          exact List.not_mem_nil _ hmem
        · rw [if_neg hsk] at hmem
          have hbid := mem_block_booking_id hmem
          exact hbne (List.inj_on_of_nodup_map hid (List.mem_filter.mp hbL).1 hexdb hbid.symm)
  · intro r hr
    rw [hcc] at hr
    by_cases hPe : P.isEmpty
    · rw [if_pos hPe] at hr
      exact absurd hr (List.not_mem_nil r)
    · rw [if_neg hPe] at hr
      obtain ⟨ex, hexL, hrF⟩ := List.mem_flatMap.mp hr
      obtain ⟨hexdb, hpred⟩ := List.mem_filter.mp hexL
      simp only [Bool.and_eq_true, decide_eq_true_eq, Bool.not_eq_true'] at hpred
      simp only [hFdef] at hrF
      by_cases hsk : skipExcluded excl ex
      · rw [if_pos hsk] at hrF
        exact absurd hrF (List.not_mem_nil r)
      · rw [if_neg hsk] at hrF
        obtain ⟨q, hq, hr2⟩ := List.mem_flatMap.mp hrF
        obtain ⟨eo, heo, rfl⟩ := List.mem_map.mp hr2
        obtain ⟨heoE, hov⟩ := List.mem_filter.mp heo
        exact ⟨ex, hexdb, hpred.1, hpred.2, Bool.eq_false_iff.mpr hsk,
          eo, heoE, rfl, q, hq, hov⟩
  · intro q eo h
    simp only [overlaps, decide_eq_false_iff_not]
    omega

/-- C1 witness: against rows id 1 (Jan 2) and id 2 (Jan 1), a two-day daily
candidate yields exactly one record for row 2's occurrence. -/
theorem check_conflicts_pairs_witness :
    (check_conflicts [exRow1, exRow2] 1 28401720 28401780 (some dailyK) none
        (some 19724) none).count (mkRec exRow2 (28401720, 28401780)) = 1 := by
  have h := (check_conflicts_pairs [exRow1, exRow2] 1 28401720 28401780 (some dailyK)
      none (some 19724) none (by decide)).1 exRow2 (by decide) rfl rfl rfl
      (28401720, 28401780) (by decide)
  rw [h]
  decide

/-- C3 counterexample: with existing rows id 1 (2024-01-02 10:00–11:00) and id 2
(2024-01-01 10:00–11:00) and a daily candidate covering both days, the records
come back with starts Jan 2 then Jan 1 — not ordered by the existing
occurrence's start ascending. -/
theorem check_conflicts_order_counterexample :
    ¬ List.Pairwise (fun a b => a.start_dt ≤ b.start_dt)
      (check_conflicts [exRow1, exRow2] 1 28401720 28401780 (some dailyK) none
        (some 19724) none) := by
  decide

/-- C3 amended: the records are emitted grouped by existing definition in store
order rather than globally sorted; for a single existing definition and a
non-recurring candidate, the records are ordered by the existing occurrence's
start ascending. -/
theorem check_conflicts_order_amended (ex : BookingRow) (room_id s e : Int)
    (rd : Option String) (ru excl : Option Int) :
    List.Pairwise (fun a b => a.start_dt ≤ b.start_dt)
      (check_conflicts [ex] room_id s e none rd ru excl) := by
  simp only [check_conflicts]
  split
  · exact List.Pairwise.nil
  · simp only [List.filter_cons, List.filter_nil]
    by_cases hpred : (decide (ex.room_id = room_id) && !ex.is_cancelled) = true
    · rw [if_pos hpred]
      simp only [List.flatMap_cons, List.flatMap_nil, List.append_nil]
      by_cases hsk : skipExcluded excl ex = true
      · rw [if_pos hsk]
        exact List.Pairwise.nil
      · rw [if_neg hsk]
        simp only [_expand_occurrences]
        split
        · simp only [List.flatMap_cons, List.flatMap_nil, List.append_nil]
          apply List.pairwise_map.mpr
          apply List.Pairwise.imp ?_ (List.Pairwise.filter _ (expand_pairwise ex.defn _ _))
          intro a b h
          exact Int.le_of_lt h
        · exact List.Pairwise.nil
    · rw [if_neg hpred]
      exact List.Pairwise.nil

/-- C4 counterexample: room 1 holds row id 1 (non-recurring 2024-01-02
10:00–11:00) and row id 2 (daily 2024-01-01 until 01-02); the two entries of
2024-01-02 10:00 come back as id 2 then id 1, so equal-start ties are not in
ascending definition-id order. -/
theorem get_room_schedule_tie_counterexample :
    ¬ List.Pairwise (fun a b => a.start_dt < b.start_dt ∨
        (a.start_dt = b.start_dt ∧ a.booking_id ≤ b.booking_id))
      (get_room_schedule [exRow1, exRowDaily] 1 19723 19724) := by
  decide

/-- C4 amended: the schedule is a permutation of the concatenated expansions of
the room's non-cancelled definitions, sorted by occurrence start ascending; the
sort is stable, so equal-start ties keep the store's anchor-start row order,
which need not be ascending definition-id order. -/
theorem get_room_schedule_sorted (db : List BookingRow) (room_id ws we : Int) :
    List.Pairwise (fun a b => a.start_dt ≤ b.start_dt)
      (get_room_schedule db room_id ws we)
    ∧ (get_room_schedule db room_id ws we).Perm
        ((db.filter (fun b => decide (b.room_id = room_id) && !b.is_cancelled)).flatMap
          (fun b => entriesOf b ws we)) := by
  constructor
  · haveI : IsTotal ScheduleEntry entryLE := ⟨fun a b => Int.le_total a.start_dt b.start_dt⟩
    haveI : IsTrans ScheduleEntry entryLE := ⟨fun a b c h1 h2 => le_trans h1 h2⟩
    exact List.sorted_insertionSort entryLE _
  · unfold get_room_schedule
    refine (List.perm_insertionSort entryLE _).trans ?_
    apply List.Perm.flatMap_right
    unfold get_room_bookings_raw
    exact List.perm_insertionSort rowLE _

end RoomsBooking
